import Mathlib

/-!
Verification of the md-folder-seo-generator core against its specification.

Strings are modelled as their underlying lists of Unicode scalar values
(`List Char`), which matches the JavaScript string operations used by the
source for all inputs under consideration: every character class appearing in
the source regexes lies in the Basic Multilingual Plane, and surrogate halves
of astral characters fall outside every such class, so testing scalar values
is observationally equal to testing UTF-16 code units here.
-/

/-- The set of characters matched by the JavaScript `\s` regex class and
removed by `String.prototype.trim`: tab, LF, VT, FF, CR, space, NBSP, and the
Unicode space separators, line separators and BOM. -/
def jsWhitespace (c : Char) : Bool :=
  c.toNat = 0x9 || c.toNat = 0xA || c.toNat = 0xB || c.toNat = 0xC ||
  c.toNat = 0xD || c.toNat = 0x20 || c.toNat = 0xA0 || c.toNat = 0x1680 ||
  (0x2000 ≤ c.toNat && c.toNat ≤ 0x200A) || c.toNat = 0x2028 ||
  c.toNat = 0x2029 || c.toNat = 0x202F || c.toNat = 0x205F ||
  c.toNat = 0x3000 || c.toNat = 0xFEFF

/-- `String.prototype.trim`: drop the maximal whitespace run at each end. -/
def trimChars (l : List Char) : List Char :=
  ((l.dropWhile jsWhitespace).reverse.dropWhile jsWhitespace).reverse

/-- ASCII lowercasing, the part of `String.prototype.toLowerCase` relevant to
the source: every non-ASCII character the slug filter keeps (Hangul syllables,
hyphen, digits) is unaffected by Unicode lowercasing. -/
def toLowerAscii (c : Char) : Char :=
  if 0x41 ≤ c.toNat && c.toNat ≤ 0x5A then Char.ofNat (c.toNat + 32) else c

/-- Character class `[a-z0-9가-힣-]` kept by the slug filter in
`filenameToSlug` (`src/core/utils/slugify.ts`). -/
def slugAllowedChar (c : Char) : Bool :=
  (0x61 ≤ c.toNat && c.toNat ≤ 0x7A) || (0x30 ≤ c.toNat && c.toNat ≤ 0x39) ||
  (0xAC00 ≤ c.toNat && c.toNat ≤ 0xD7A3) || c.toNat = 0x2D

/-- The hyphen character class of the slug normalization. -/
def isHyphen (c : Char) : Bool :=
  c = '-'

/-- Global regex replacement of each maximal run of characters satisfying `p`
by the single character `r` (used for `\s+` → `-` and `-+` → `-`).  The flag
records whether the previous character belonged to the run being replaced. -/
def collapseRunsAux (p : Char → Bool) (r : Char) : Bool → List Char → List Char
  | _, [] => []
  | true, c :: ts =>
    if p c then collapseRunsAux p r true ts else c :: collapseRunsAux p r false ts
  | false, c :: ts =>
    if p c then r :: collapseRunsAux p r true ts else c :: collapseRunsAux p r false ts

/-- Replace each maximal run of characters satisfying `p` by `r`. -/
def collapseRuns (p : Char → Bool) (r : Char) (l : List Char) : List Char :=
  collapseRunsAux p r false l

/-- `String.prototype.split("/")` on the underlying character list. -/
def splitOnSlash : List Char → List (List Char)
  | [] => [[]]
  | c :: ts =>
    if c = '/' then [] :: splitOnSlash ts
    else
      match splitOnSlash ts with
      | [] => [[c]]
      | s :: ss => (c :: s) :: ss

/-- `Array.prototype.join("/")` on character lists. -/
def joinSlash : List (List Char) → List Char
  | [] => []
  | s :: ss =>
    match ss with
    | [] => s
    | _ :: _ => s ++ '/' :: joinSlash ss

/-- Removal of a trailing `.md` (the regex `\.md$` can match at most once,
at the very end of the string). -/
def stripMdSuffix (l : List Char) : List Char :=
  if l.reverse.take 3 = ['d', 'm', '.'] then (l.reverse.drop 3).reverse else l

/-- The replacement `\\` → `/` performed character by character. -/
def backslashToSlash (c : Char) : Char :=
  if c = '\\' then '/' else c

/-- Per-segment normalization of `filenameToSlug`: trim, lowercase, whitespace
runs and underscores to hyphens, delete disallowed characters, collapse and
strip hyphens — in exactly the order of the source's method chain. -/
def processSegment (seg : List Char) : List Char :=
  let s1 := trimChars seg
  let s2 := s1.map toLowerAscii
  let s3 := collapseRuns jsWhitespace '-' s2
  let s4 := s3.map (fun c => if c = '_' then '-' else c)
  let s5 := s4.filter slugAllowedChar
  let s6 := collapseRuns isHyphen '-' s5
  ((s6.dropWhile isHyphen).reverse.dropWhile isHyphen).reverse

/-- Core of `filenameToSlug` on character lists: strip the `.md` extension,
normalize path separators, process each `/`-segment, drop empty segments and
rejoin. -/
def slugCore (l : List Char) : List Char :=
  joinSlash
    (((splitOnSlash ((stripMdSuffix l).map backslashToSlash)).map processSegment).filter
      (fun s => !s.isEmpty))

/-- `filenameToSlug` from `src/core/utils/slugify.ts`; empty input (the only
falsy `string`) yields the empty string. -/
def filenameToSlug (s : String) : String :=
  if s.data = [] then "" else String.mk (slugCore s.data)

/-- C8: the slug generator performs the per-segment normalization of §4.1 of
the specification; in particular the two documented examples hold: a mixed
path with spaces and underscores, and a Hangul filename. -/
theorem filenameToSlug_examples :
    filenameToSlug "My Folder/Another_Post with_Spaces.md" =
      "my-folder/another-post-with-spaces" ∧
    filenameToSlug "한글 파일 이름.md" = "한글-파일-이름" := by
  constructor
  · decide
  · decide

/-- First regex class of `isLikelyEnglish` (`src/llm/mdToSEO.ts`), commented
"Hangul (Korean)" in the source: `[ㄱ-힝가-힯]`. -/
def hangulRegexTest (c : Char) : Bool :=
  (0x3131 ≤ c.toNat && c.toNat ≤ 0xD79D) || (0xAC00 ≤ c.toNat && c.toNat ≤ 0xD7AF)

/-- Second regex class of `isLikelyEnglish`: `[぀-ゟ゠-ヿ]`
(Hiragana, Katakana). -/
def kanaRegexTest (c : Char) : Bool :=
  (0x3040 ≤ c.toNat && c.toNat ≤ 0x309F) || (0x30A0 ≤ c.toNat && c.toNat ≤ 0x30FF)

/-- Third regex class of `isLikelyEnglish`: `[一-鿿]` (CJK Unified
Ideographs). -/
def cjkRegexTest (c : Char) : Bool :=
  0x4E00 ≤ c.toNat && c.toNat ≤ 0x9FFF

/-- Fourth regex class of `isLikelyEnglish`: `[Ѐ-ӿ]` (Cyrillic). -/
def cyrillicRegexTest (c : Char) : Bool :=
  0x0400 ≤ c.toNat && c.toNat ≤ 0x04FF

/-- `isLikelyEnglish` from `src/llm/mdToSEO.ts`: empty input is likely
English; otherwise the four script regexes are tested in order and the first
match short-circuits to `false`. -/
def isLikelyEnglish (s : String) : Bool :=
  if s.data = [] then true
  else if s.data.any hangulRegexTest then false
  else if s.data.any kanaRegexTest then false
  else if s.data.any cjkRegexTest then false
  else if s.data.any cyrillicRegexTest then false
  else true

/-- Union of the four regex classes actually tested by `isLikelyEnglish`. -/
def nonEnglishScriptChar (c : Char) : Bool :=
  hangulRegexTest c || kanaRegexTest c || cjkRegexTest c || cyrillicRegexTest c

/-- The character classes the specification names for the language gate, read
as the Unicode blocks of those scripts: Hangul (Jamo, Compatibility Jamo,
Jamo Extended-A/B, Syllables), Hiragana, Katakana, CJK Unified Ideographs,
Cyrillic.  This follows the words of the specification, to be compared with
the ranges the code actually tests. -/
def listedNonLatinScriptChar (c : Char) : Bool :=
  (0x1100 ≤ c.toNat && c.toNat ≤ 0x11FF) ||
  (0x3130 ≤ c.toNat && c.toNat ≤ 0x318F) ||
  (0xA960 ≤ c.toNat && c.toNat ≤ 0xA97F) ||
  (0xAC00 ≤ c.toNat && c.toNat ≤ 0xD7AF) ||
  (0xD7B0 ≤ c.toNat && c.toNat ≤ 0xD7FF) ||
  (0x3040 ≤ c.toNat && c.toNat ≤ 0x309F) ||
  (0x30A0 ≤ c.toNat && c.toNat ≤ 0x30FF) ||
  (0x4E00 ≤ c.toNat && c.toNat ≤ 0x9FFF) ||
  (0x0400 ≤ c.toNat && c.toNat ≤ 0x04FF)

/-- `SEOData` from `src/types.ts`: all three fields optional; the parser never
produces keywords. -/
structure SEOData where
  title : Option String
  description : Option String
  keywords : Option (List String)
deriving DecidableEq, Repr

/-- Case-insensitive matching of one character for an ASCII pattern character
(the `i` regex flag in non-Unicode mode folds only ASCII letters). -/
def charMatchesCI (pat c : Char) : Bool :=
  toLowerAscii c = pat

/-- Whether the text begins with the (lowercase ASCII) label, matched
case-insensitively. -/
def startsWithCI : List Char → List Char → Bool
  | [], _ => true
  | _ :: _, [] => false
  | p :: ps, c :: cs => charMatchesCI p c && startsWithCI ps cs

/-- Leftmost case-insensitive occurrence of `label`: returns the text before
the occurrence and the text after it, or `none` when the label does not occur
(i.e. the regex fails to match). -/
def splitAtLabelCI (label : List Char) : List Char → Option (List Char × List Char)
  | [] => none
  | c :: ts =>
    if startsWithCI label (c :: ts) then some ([], (c :: ts).drop label.length)
    else
      match splitAtLabelCI label ts with
      | none => none
      | some (pre, post) => some (c :: pre, post)

/-- Lazy capture: the text up to (not including) the first case-insensitive
occurrence of `stop`, or the whole text when `stop` never occurs.  This is the
semantics of `(.*?)(?:stop|$)` with the `s` flag. -/
def takeUntilCI (stop : List Char) : List Char → List Char
  | [] => []
  | c :: ts => if startsWithCI stop (c :: ts) then [] else c :: takeUntilCI stop ts

/-- The capture group of `/SEO Title:(.*?)(?:\nMeta Description:|$)/is` on the
response text, when the title label occurs. -/
def titleCaptureOf (text : List Char) : Option (List Char) :=
  match splitAtLabelCI ("seo title:").data text with
  | none => none
  | some pr => some (takeUntilCI ("\nmeta description:").data pr.2)

/-- The capture group of `/Meta Description:(.*)$/is` on the response text,
when the description label occurs. -/
def descCaptureOf (text : List Char) : Option (List Char) :=
  match splitAtLabelCI ("meta description:").data text with
  | none => none
  | some pr => some pr.2

/-- Drop characters up to and including the first newline; the whole rest when
there is none.  Together with `splitAtLabelCI` this is the replacement
`.replace(/SEO Title:.*?(\n|$)/is, "")`. -/
def dropThroughNewline : List Char → List Char
  | [] => []
  | c :: ts => if c = '\n' then ts else dropThroughNewline ts

/-- `responseText.replace(/SEO Title:.*?(\n|$)/is, "")`: delete the first
"SEO Title:" fragment through the end of its line. -/
def removeTitleFragment (text : List Char) : List Char :=
  match splitAtLabelCI ("seo title:").data text with
  | none => text
  | some pr => pr.1 ++ dropThroughNewline pr.2

/-- Removal of one layer of surrounding double quotes, with JavaScript's
`substring` clamping: a single-character string `"` starts and ends with a
quote but `substring(1, 0)` swaps its arguments and returns it unchanged. -/
def stripQuotes (l : List Char) : List Char :=
  if l.head? = some '"' && (decide (l.getLast? = some '"')) && decide (2 ≤ l.length)
  then (l.drop 1).dropLast else l

/-- `parseEnglishSEOResponse` from `src/llm/mdToSEO.ts`.  A falsy response
(absent or empty) yields the fallback title only.  Otherwise the title label
capture is used when non-blank (quotes stripped); the description label
capture is used when non-blank (quotes stripped); and only when that fails,
the title label was never found, the trimmed text is non-empty, the cleaned
text is non-empty and the title slot still holds the original title, the
first 160 characters of the cleaned text become the description. -/
def parseEnglishSEOResponse (responseText : Option String) (originalTitle : String) : SEOData :=
  match responseText with
  | none => ⟨some originalTitle, none, none⟩
  | some rt =>
    if rt.data = [] then ⟨some originalTitle, none, none⟩
    else
      let text := rt.data
      let seoTitle : List Char :=
        match titleCaptureOf text with
        | some cap => if trimChars cap = [] then originalTitle.data else stripQuotes (trimChars cap)
        | none => originalTitle.data
      let fallbackDescription : Option (List Char) :=
        if titleCaptureOf text = none ∧ trimChars text ≠ [] then
          let cleaned := trimChars (removeTitleFragment text)
          if cleaned ≠ [] ∧ seoTitle = originalTitle.data then
            some (stripQuotes (cleaned.take 160))
          else none
        else none
      let seoDescription : Option (List Char) :=
        match descCaptureOf text with
        | some cap =>
          if trimChars cap = [] then fallbackDescription else some (stripQuotes (trimChars cap))
        | none => fallbackDescription
      ⟨some (String.mk seoTitle), seoDescription.map String.mk, none⟩

/-- C5: round trip of the response parser on a well-labelled response, for
every fallback title: the title capture runs up to the "Meta Description:"
label, the description capture runs to the end, and both are trimmed. -/
theorem parseEnglishSEOResponse_roundtrip (t : String) :
    parseEnglishSEOResponse (some "SEO Title: Foo\nMeta Description: Bar") t =
      ⟨some "Foo", some "Bar", none⟩ := by
  rfl

/-- `List.any` distributes over a pointwise disjunction of predicates. -/
theorem any_or_distrib (l : List Char) (p q : Char → Bool) :
    l.any (fun c => p c || q c) = (l.any p || l.any q) := by
  induction l with
  | nil => rfl
  | cons c ts ih =>
    simp only [List.any_cons, ih]
    cases p c <;> cases q c <;> simp

/-- C4 counterexample: U+A000 (a Yi syllable) belongs to none of the scripts
the specification lists — it is not Hangul, Hiragana, Katakana, a CJK Unified
Ideograph, nor Cyrillic — yet `isLikelyEnglish` classifies the one-character
text as non-English, because the first source regex spans U+3131–U+D79D. -/
theorem isLikelyEnglish_listed_scripts_counterexample :
    isLikelyEnglish (String.mk [Char.ofNat 0xA000]) = false ∧
    listedNonLatinScriptChar (Char.ofNat 0xA000) = false := by
  decide

/-- C4 (amended): `isLikelyEnglish` returns `true` on the empty string, and on
any text it returns `false` exactly when some character falls in one of the
four regex ranges the code tests (single-hit semantics); the first of those
ranges is wider than the Hangul script. -/
theorem isLikelyEnglish_characterization (s : String) :
    (isLikelyEnglish s = false ↔ s.data.any nonEnglishScriptChar = true) ∧
    isLikelyEnglish "" = true := by
  refine ⟨?_, by decide⟩
  have keyEq : s.data.any nonEnglishScriptChar =
      (s.data.any hangulRegexTest || s.data.any kanaRegexTest ||
        s.data.any cjkRegexTest || s.data.any cyrillicRegexTest) := by
    rw [show nonEnglishScriptChar =
        (fun c => hangulRegexTest c ||
          (kanaRegexTest c || (cjkRegexTest c || cyrillicRegexTest c))) from by
      funext c
      unfold nonEnglishScriptChar
      cases hangulRegexTest c <;> cases kanaRegexTest c <;>
        cases cjkRegexTest c <;> cases cyrillicRegexTest c <;> rfl]
    rw [any_or_distrib, any_or_distrib, any_or_distrib]
    cases s.data.any hangulRegexTest <;> cases s.data.any kanaRegexTest <;>
      cases s.data.any cjkRegexTest <;> cases s.data.any cyrillicRegexTest <;> rfl
  by_cases h0 : s.data = []
  · simp [isLikelyEnglish, h0, keyEq]
  · rw [keyEq]
    unfold isLikelyEnglish
    rw [if_neg h0]
    cases h1 : s.data.any hangulRegexTest <;> cases h2 : s.data.any kanaRegexTest <;>
      cases h3 : s.data.any cjkRegexTest <;> cases h4 : s.data.any cyrillicRegexTest <;>
      simp [h1, h2, h3, h4]

/-- C6: a response with no label at all becomes the description verbatim
(title falls back to the original), and a long unlabeled response is
truncated to its first 160 characters. -/
theorem parseEnglishSEOResponse_unlabeled :
    parseEnglishSEOResponse (some "Just some unlabeled text.") "X" =
      ⟨some "X", some "Just some unlabeled text.", none⟩ ∧
    parseEnglishSEOResponse (some (String.mk (List.replicate 200 'a'))) "X" =
      ⟨some "X", some (String.mk (List.replicate 160 'a')), none⟩ := by
  constructor
  · decide
  · set_option maxRecDepth 8000 in decide

/-- The description produced by the "Meta Description:" label match alone
(step 3 of §4.4): the trimmed capture with one layer of quotes stripped, or
nothing when the label is missing or its capture is blank. -/
def labelledDescriptionOf (text : List Char) : Option String :=
  match descCaptureOf text with
  | some cap =>
    if trimChars cap = [] then none else some (String.mk (stripQuotes (trimChars cap)))
  | none => none

/-- C7 counterexample: on `"Meta Description: Hello"` every firing condition
stated by the claim holds — the title label is absent, the raw text is
non-empty after trimming, and the title slot is untouched — yet the parser
does not fire the fallback: its description is the label capture `"Hello"`,
not the first 160 characters of the label-stripped raw text. -/
theorem parse_fallback_counterexample :
    titleCaptureOf ("Meta Description: Hello").data = none ∧
    trimChars ("Meta Description: Hello").data ≠ [] ∧
    parseEnglishSEOResponse (some "Meta Description: Hello") "X" =
      ⟨some "X", some "Hello", none⟩ ∧
    ("Hello" : String) ≠ "Meta Description: Hello" := by
  decide

/-- When the title capture is absent so is the underlying label split. -/
theorem splitAtLabel_of_titleCapture_none (text : List Char)
    (h : titleCaptureOf text = none) :
    splitAtLabelCI ("seo title:").data text = none := by
  unfold titleCaptureOf at h
  cases hs : splitAtLabelCI ("seo title:").data text with
  | none => rfl
  | some pr => rw [hs] at h; exact absurd h (by simp)

/-- C7 (amended): the fallback heuristic fires exactly in the else-branch of
the description match — when the title label was not found, the trimmed raw
text is non-empty, the title slot is untouched AND the description label
match produced no non-blank capture — and then the description is the first
160 characters of the label-stripped trimmed text with quotes stripped; when
the title label was found, the description is exactly the labelled one, so a
successfully parsed title is never overwritten. -/
theorem parse_fallback_characterization (raw fallback : String) :
    (titleCaptureOf raw.data = none → trimChars raw.data ≠ [] →
      (∀ cap, descCaptureOf raw.data = some cap → trimChars cap = []) →
      parseEnglishSEOResponse (some raw) fallback =
        ⟨some fallback, some (String.mk (stripQuotes ((trimChars raw.data).take 160))),
          none⟩) ∧
    (∀ pr, titleCaptureOf raw.data = some pr →
      (parseEnglishSEOResponse (some raw) fallback).description =
        labelledDescriptionOf raw.data) := by
  constructor
  · intro ht hne hdesc
    have hraw : raw.data ≠ [] := by
      intro h
      rw [h] at hne
      exact hne rfl
    have hsplit := splitAtLabel_of_titleCapture_none raw.data ht
    simp only [parseEnglishSEOResponse]
    rw [if_neg hraw]
    simp only [ht, removeTitleFragment, hsplit]
    cases hd : descCaptureOf raw.data with
    | none => simp [hd, hne]
    | some cap => simp [hd, hdesc cap hd, hne]
  · intro pr hpr
    have hraw : raw.data ≠ [] := by
      intro h
      rw [h] at hpr
      exact absurd hpr (by simp [titleCaptureOf, splitAtLabelCI])
    simp only [parseEnglishSEOResponse, labelledDescriptionOf]
    rw [if_neg hraw]
    simp only [hpr]
    cases hd : descCaptureOf raw.data with
    | none => simp [hd, hpr]
    | some cap => by_cases hc : trimChars cap = [] <;> simp [hd, hc, hpr]

/-- C7 amended witness: the fallback fires on a labelless response. -/
theorem parse_fallback_characterization_witness :
    parseEnglishSEOResponse (some "Just text") "F" = ⟨some "F", some "Just text", none⟩ := by
  have h := (parse_fallback_characterization "Just text" "F").1 (by decide) (by decide)
    (fun cap hc => by
      have : descCaptureOf ("Just text").data = none := by decide
      rw [this] at hc
      exact absurd hc (by simp))
  rw [h]
  decide

/-- `content.split(/\s+/)` from `markdownToSEO`: JavaScript splits at each
maximal whitespace run, keeping an empty leading (resp. trailing) piece when
the text starts (resp. ends) with whitespace. -/
def splitWsCore : List Char → List (List Char)
  | [] => [[]]
  | c :: ts =>
    if jsWhitespace c then
      match ts with
      | [] => [] :: splitWsCore ts
      | t :: _ => if jsWhitespace t then splitWsCore ts else [] :: splitWsCore ts
    else
      match splitWsCore ts with
      | [] => [[c]]
      | s :: ss => (c :: s) :: ss

/-- `Array.prototype.join(" ")` on character lists. -/
def joinSpace : List (List Char) → List Char
  | [] => []
  | s :: ss =>
    match ss with
    | [] => s
    | _ :: _ => s ++ ' ' :: joinSpace ss

/-- The module-local `LLMConfig` interface of `src/llm/mdToSEO.ts`: every
field optional. -/
structure LLMConfig where
  modelName : Option String
  minContentLengthForSeo : Option Nat
  maxContentLengthForPrompt : Option Nat
deriving DecidableEq

/-- Destructured `modelName` in `markdownToSEO`:
`const { modelName = config.modelName || DEFAULT } = config` applies the
default expression only when the property is `undefined`, and in that case
`config.modelName || DEFAULT` evaluates to the default model id. -/
def effectiveModelName (cfg : LLMConfig) : String :=
  match cfg.modelName with
  | some m => m
  | none => "Xenova/LaMini-Flan-T5-783M"

/-- Destructured `minContentLengthForSeo` in `markdownToSEO`: the
destructuring default fires only for an absent (`undefined`) property, where
`config.minContentLengthForSeo || 50` yields `50`; a present value —
including `0` — is used as-is. -/
def effectiveMinContentLength (cfg : LLMConfig) : Nat :=
  match cfg.minContentLengthForSeo with
  | some n => n
  | none => 50

/-- Destructured `maxContentLengthForPrompt` in `markdownToSEO`: same
destructuring semantics, default `250`. -/
def effectiveMaxContentLength (cfg : LLMConfig) : Nat :=
  match cfg.maxContentLengthForPrompt with
  | some n => n
  | none => 250

/-- The response shape of the text-generation collaborator: an array of
results or a single result, each carrying a `generated_text` field that may
or may not be a string (`none` models a missing or non-string field). -/
inductive GenOutputs where
  | list (results : List (Option String))
  | single (generatedText : Option String)

/-- Behaviour of one invocation of the collaborator: the pipeline load or the
generation call throws, or a response is returned. -/
inductive GenOutcome where
  | throws
  | result (outputs : GenOutputs)

/-- Extraction of the generated text from the response shape, as in
`markdownToSEO`: the first element of a non-empty array when its
`generated_text` is a string, or the single object's `generated_text` when it
is a string. -/
def extractGeneratedText : GenOutputs → Option String
  | GenOutputs.list [] => none
  | GenOutputs.list (x :: _) => x
  | GenOutputs.single t => t

/-- The text an invocation outcome actually provides to the parser: nothing
on a throw, nothing when no string was extracted, and nothing when the
extracted string is empty (falsy in `if (generatedText)`). -/
def usableText : GenOutcome → Option String
  | GenOutcome.throws => none
  | GenOutcome.result outputs =>
    match extractGeneratedText outputs with
    | some t => if t.data = [] then none else some t
    | none => none

/-- Fixed part of the prompt template before the original title. -/
def promptHeader : String :=
  "\nBased on the original title and content excerpt of the following blog post:\nOriginal Title: \""

/-- Fixed part of the prompt template between title and excerpt. -/
def promptMid : String := "\"\nContent Excerpt: \""

/-- Fixed part of the prompt template after the excerpt. -/
def promptTail : String :=
  "\"\n\nPlease generate an SEO-optimized title (around 50-70 characters) and a meta description (around 100-160 characters).\n\nRespond in the following format, using these exact labels. Do not include any other conversation or explanations:\nSEO Title: [Your suggested SEO title here]\nMeta Description: [Your suggested meta description here]\n\nIf it\x27s difficult to generate a better title, you can use or slightly modify the original title.\n"

/-- `constructEnglishSEOPrompt` from `src/llm/mdToSEO.ts`: the interpolated
template literal, trimmed. -/
def constructEnglishSEOPrompt (originalTitle contentExcerpt : String) : String :=
  String.mk (trimChars (promptHeader.data ++ originalTitle.data ++ promptMid.data ++
    contentExcerpt.data ++ promptTail.data))

/-- `markdownToSEO` from `src/llm/mdToSEO.ts`, with the external
text-generation collaborator passed as a function `gen` from the effective
model name and the prompt to an invocation outcome (the constant generation
bounds `min_new_tokens = 15`, `max_new_tokens = 120` do not influence the
modelled behaviour).  Gates: non-English title, then word count below the
effective minimum; then the collaborator is invoked, a throw or an unusable
response yields `none`, and otherwise the parsed response is returned. -/
def markdownToSEO (gen : String → String → GenOutcome)
    (originalTitle content : String) (config : LLMConfig) : Option SEOData :=
  if isLikelyEnglish originalTitle = false then none
  else
    let modelName := effectiveModelName config
    let minContentLengthForSeo := effectiveMinContentLength config
    let maxContentLengthForPrompt := effectiveMaxContentLength config
    let wordCount := ((splitWsCore content.data).filter (fun t => !t.isEmpty)).length
    if wordCount < minContentLengthForSeo then none
    else
      let contentExcerpt :=
        String.mk (joinSpace ((splitWsCore content.data).take maxContentLengthForPrompt))
      match gen modelName (constructEnglishSEOPrompt originalTitle contentExcerpt) with
      | GenOutcome.throws => none
      | GenOutcome.result outputs =>
        match extractGeneratedText outputs with
        | some t =>
          if t.data = [] then none else some (parseEnglishSEOResponse (some t) originalTitle)
        | none => none

/-- A collaborator that always answers with a fixed well-labelled response. -/
def genOk : String → String → GenOutcome :=
  fun _ _ => GenOutcome.result (GenOutputs.single (some "SEO Title: T\nMeta Description: D"))

/-- A fifty-word content sample. -/
def fiftyWords : String := String.mk (joinSpace (List.replicate 50 ['w']))

/-- C2: content whose non-empty whitespace token count is below the effective
minimum always yields the skipped result, whatever the title; and a
non-English title always yields the skipped result, whatever the content. -/
theorem markdownToSEO_gates (gen : String → String → GenOutcome)
    (title content : String) (cfg : LLMConfig) :
    (((splitWsCore content.data).filter (fun t => !t.isEmpty)).length <
        effectiveMinContentLength cfg →
      markdownToSEO gen title content cfg = none) ∧
    (isLikelyEnglish title = false → markdownToSEO gen title content cfg = none) := by
  constructor
  · intro h
    simp only [markdownToSEO]
    by_cases he : isLikelyEnglish title = false
    · rw [if_pos he]
    · rw [if_neg he, if_pos h]
  · intro h
    simp only [markdownToSEO]
    rw [if_pos h]

/-- C2 witness: a nine-word content is skipped under an English title, and a
Korean title is skipped over a fifty-word content. -/
theorem markdownToSEO_gates_witness :
    markdownToSEO genOk "An English Title" "too short" ⟨none, none, none⟩ = none ∧
    markdownToSEO genOk "한국어 제목" fiftyWords ⟨none, none, none⟩ = none :=
  ⟨(markdownToSEO_gates genOk "An English Title" "too short" ⟨none, none, none⟩).1
      (by decide),
    (markdownToSEO_gates genOk "한국어 제목" fiftyWords ⟨none, none, none⟩).2 (by decide)⟩

/-- C3: the component boundary converts every collaborator failure to the
skipped result — whenever every invocation outcome carries no usable text
(throw, unusable response shape, or empty text), `markdownToSEO` returns
`none`; and in general the result is either the skipped result or the full
parse of some non-empty generated text, so no partial record and no
propagated exception is ever produced. -/
theorem markdownToSEO_failure_boundary (gen : String → String → GenOutcome)
    (title content : String) (cfg : LLMConfig) :
    ((∀ m p, usableText (gen m p) = none) → markdownToSEO gen title content cfg = none) ∧
    (markdownToSEO gen title content cfg = none ∨
      ∃ t : String, t.data ≠ [] ∧
        markdownToSEO gen title content cfg =
          some (parseEnglishSEOResponse (some t) title)) := by
  constructor
  · intro h
    simp only [markdownToSEO]
    by_cases he : isLikelyEnglish title = false
    · rw [if_pos he]
    · rw [if_neg he]
      by_cases hw : ((splitWsCore content.data).filter (fun t => !t.isEmpty)).length <
          effectiveMinContentLength cfg
      · rw [if_pos hw]
      · rw [if_neg hw]
        have hu := h (effectiveModelName cfg)
          (constructEnglishSEOPrompt title
            (String.mk (joinSpace
              ((splitWsCore content.data).take (effectiveMaxContentLength cfg)))))
        cases hg : gen (effectiveModelName cfg)
            (constructEnglishSEOPrompt title
              (String.mk (joinSpace
                ((splitWsCore content.data).take (effectiveMaxContentLength cfg))))) with
        | throws => rfl
        | result outputs =>
          rw [hg] at hu
          simp only [usableText] at hu
          cases hx : extractGeneratedText outputs with
          | none => simp [hx]
          | some t =>
            rw [hx] at hu
            by_cases hz : t.data = []
            · simp [hx, hz]
            · simp [hz] at hu
  · by_cases he : isLikelyEnglish title = false
    · left
      simp only [markdownToSEO]
      rw [if_pos he]
    · by_cases hw : ((splitWsCore content.data).filter (fun t => !t.isEmpty)).length <
          effectiveMinContentLength cfg
      · left
        simp only [markdownToSEO]
        rw [if_neg he, if_pos hw]
      · cases hg : gen (effectiveModelName cfg)
            (constructEnglishSEOPrompt title
              (String.mk (joinSpace
                ((splitWsCore content.data).take (effectiveMaxContentLength cfg))))) with
        | throws =>
          left
          simp only [markdownToSEO]
          rw [if_neg he, if_neg hw, hg]
        | result outputs =>
          cases hx : extractGeneratedText outputs with
          | none =>
            left
            simp only [markdownToSEO]
            rw [if_neg he, if_neg hw, hg]
            simp [hx]
          | some t =>
            by_cases hz : t.data = []
            · left
              simp only [markdownToSEO]
              rw [if_neg he, if_neg hw, hg]
              simp [hx, hz]
            · right
              refine ⟨t, hz, ?_⟩
              simp only [markdownToSEO]
              rw [if_neg he, if_neg hw, hg]
              simp [hx, hz]

/-- C3 witness: a collaborator that always throws yields the skipped result
even when both gates pass. -/
theorem markdownToSEO_failure_boundary_witness :
    markdownToSEO (fun _ _ => GenOutcome.throws) "A Title" fiftyWords
      ⟨none, none, none⟩ = none :=
  (markdownToSEO_failure_boundary (fun _ _ => GenOutcome.throws) "A Title" fiftyWords
    ⟨none, none, none⟩).1 (fun _ _ => rfl)

/-- C10 counterexample: with an explicitly configured threshold of `0` a
ten-word content is processed (the length gate compares against `0`, not
against the default `50`), while with the threshold omitted the same call is
skipped — so configuring `0` is observably different from omitting it. -/
theorem markdownToSEO_zero_config_counterexample :
    markdownToSEO genOk "Title" "ten short words of content here padding the word count"
        ⟨none, some 0, some 0⟩ ≠
      markdownToSEO genOk "Title" "ten short words of content here padding the word count"
        ⟨none, none, none⟩ := by
  decide

/-- C10 (amended): JavaScript destructuring defaults fire only for an absent
property, so an explicit `0` is used as-is: the effective minimum becomes
`0`, which makes the length gate unsatisfiable (processing proceeds for every
English title and any content), and the effective excerpt bound becomes `0`,
which makes the prompt excerpt empty; the defaults `50` and `250` apply only
when the fields are omitted. -/
theorem markdownToSEO_explicit_zero (title content : String) (mn : Option String)
    (mx mi : Option Nat) :
    effectiveMinContentLength ⟨mn, some 0, mx⟩ = 0 ∧
    effectiveMinContentLength ⟨mn, none, mx⟩ = 50 ∧
    effectiveMaxContentLength ⟨mn, mi, some 0⟩ = 0 ∧
    effectiveMaxContentLength ⟨mn, mi, none⟩ = 250 ∧
    String.mk (joinSpace ((splitWsCore content.data).take
      (effectiveMaxContentLength ⟨mn, mi, some 0⟩))) = "" ∧
    (isLikelyEnglish title = true →
      markdownToSEO genOk title content ⟨mn, some 0, mx⟩ =
        some (parseEnglishSEOResponse (some "SEO Title: T\nMeta Description: D") title)) := by
  refine ⟨rfl, rfl, rfl, rfl, rfl, ?_⟩
  intro h
  simp only [markdownToSEO]
  rw [if_neg (by simp [h])]
  rw [if_neg (by simp [effectiveMinContentLength])]
  simp [genOk, extractGeneratedText]

/-- C10 amended witness: with an explicit `0` threshold a two-word content is
processed underneath an English title. -/
theorem markdownToSEO_explicit_zero_witness :
    markdownToSEO genOk "T" "short content" ⟨none, some 0, none⟩ =
      some (parseEnglishSEOResponse (some "SEO Title: T\nMeta Description: D") "T") :=
  (markdownToSEO_explicit_zero "T" "short content" none none none).2.2.2.2.2 (by decide)

/-- `ProcessedNode` from `src/types.ts`; front matter is abstracted to string
key-value pairs and the last-modified date to a timestamp. -/
structure ProcessedNode where
  id : String
  title : String
  filePath : String
  fullPathSlug : String
  simpleSlug : String
  content : Option String
  frontmatter : Option (List (String × String))
  seo : Option SEOData
  lastModified : Option Nat
deriving DecidableEq

/-- `ScanResult` from `src/types.ts`; the two insertion-ordered JavaScript
collections are modelled by association lists: `Map` as a list of key-value
pairs with unique keys, `Set` as a duplicate-free list of elements. -/
structure ScanResult where
  allNotes : List ProcessedNode
  notesMapByFullPathSlug : List (String × ProcessedNode)
  notesMapBySimpleSlug : List (String × List String)
deriving DecidableEq

/-- `Map.prototype.set`: replace the value at an existing key in place,
otherwise append the new entry. -/
def mapSet (m : List (String × ProcessedNode)) (k : String) (v : ProcessedNode) :
    List (String × ProcessedNode) :=
  match m with
  | [] => [(k, v)]
  | (k', v') :: rest => if k = k' then (k, v) :: rest else (k', v') :: mapSet rest k v

/-- Insertion into the set stored under `k` in `notesMapBySimpleSlug`,
creating the set on first encounter (`Set.prototype.add` is a no-op on a
present element). -/
def simpleSlugAdd (m : List (String × List String)) (k x : String) :
    List (String × List String) :=
  match m with
  | [] => [(k, [x])]
  | (k', s) :: rest =>
    if k = k' then (k', if x ∈ s then s else s ++ [x]) :: rest
    else (k', s) :: simpleSlugAdd rest k x

/-- Modelled from the spec: the per-file step of `scanAndProcessNotes`
(`src/core/scanAndProcessNotes.ts`, not included under `src/`), following
§4.6: `filePath` is the root-relative forward-slash path, `title` comes from
the filename, `fullPathSlug = slugify(filePath)`,
`simpleSlug = slugify(filename)`, `id = fullPathSlug`; the optional
attachments (content, front matter, SEO, date) are off in the default
configuration modelled here. -/
def processFile (path : String) : ProcessedNode :=
  let fileName := String.mk ((splitOnSlash path.data).getLastD [])
  { id := filenameToSlug path
    title := String.mk (stripMdSuffix fileName.data)
    filePath := path
    fullPathSlug := filenameToSlug path
    simpleSlug := filenameToSlug fileName
    content := none
    frontmatter := none
    seo := none
    lastModified := none }

/-- Modelled from the spec: one step of the sequential accumulation of §4.6 —
append the node to `allNotes`, key it by `fullPathSlug` (later duplicates
overwrite earlier ones), and insert its `fullPathSlug` into the set keyed by
its `simpleSlug`. -/
def scanStep (st : ScanResult) (path : String) : ScanResult :=
  let node := processFile path
  { allNotes := st.allNotes ++ [node]
    notesMapByFullPathSlug := mapSet st.notesMapByFullPathSlug node.fullPathSlug node
    notesMapBySimpleSlug := simpleSlugAdd st.notesMapBySimpleSlug node.simpleSlug
      node.fullPathSlug }

/-- Modelled from the spec: `scanAndProcessNotes`
(`src/core/scanAndProcessNotes.ts`, not included under `src/`) on the
sequence of relative paths produced by the external file walker, processing
the files strictly sequentially from an empty result. -/
def scanAndProcessNotes (paths : List String) : ScanResult :=
  paths.foldl scanStep ⟨[], [], []⟩

/-- The keys of `notesMapByFullPathSlug`. -/
def fullPathKeys (r : ScanResult) : List String :=
  r.notesMapByFullPathSlug.map (fun e => e.1)

/-- Concatenation of the value lists of a simple-slug association list. -/
def concatVals (m : List (String × List String)) : List String :=
  (m.map (fun e => e.2)).foldr (fun s acc => s ++ acc) []

/-- The concatenation of all value-sets of `notesMapBySimpleSlug`; since each
value-set is duplicate-free, the cardinality of the union of the value-sets
is the length of this list after `dedup`. -/
def simpleSlugValues (r : ScanResult) : List String :=
  concatVals r.notesMapBySimpleSlug

/-- C1 counterexample: the walker may enumerate two distinct paths whose full
path slugs collide (`"a b.md"` and `"a_b.md"` both slug to `"a-b"`); then
`allNotes` has two entries but the union of the simple-slug value-sets has
only one element, so its cardinality differs from that of `allNotes`. -/
theorem scan_union_cardinality_counterexample :
    ("a b.md" : String) ≠ "a_b.md" ∧
    (simpleSlugValues (scanAndProcessNotes ["a b.md", "a_b.md"])).dedup.length = 1 ∧
    (scanAndProcessNotes ["a b.md", "a_b.md"]).allNotes.length = 2 := by
  decide

/-- A key is in the map after `mapSet` exactly when it is the inserted key or
was a key before. -/
theorem mapSet_keys (m : List (String × ProcessedNode)) (k : String) (v : ProcessedNode)
    (k' : String) :
    k' ∈ (mapSet m k v).map (fun e => e.1) ↔ k' = k ∨ k' ∈ m.map (fun e => e.1) := by
  induction m with
  | nil => simp [mapSet]
  | cons e rest ih =>
    obtain ⟨k₀, v₀⟩ := e
    by_cases h : k = k₀
    · subst h
      simp [mapSet]
    · simp [mapSet, h, ih]
      tauto

/-- Every element of the concatenated value lists after `simpleSlugAdd` is
either the inserted element or was there before. -/
theorem mem_concatVals_simpleSlugAdd (m : List (String × List String)) (k x y : String)
    (hy : y ∈ concatVals (simpleSlugAdd m k x)) : y = x ∨ y ∈ concatVals m := by
  induction m with
  | nil =>
    simp [simpleSlugAdd, concatVals] at hy
    exact Or.inl hy
  | cons e rest ih =>
    obtain ⟨k₀, s⟩ := e
    by_cases h : k = k₀
    · by_cases hx : x ∈ s
      · simp only [simpleSlugAdd, if_pos h, if_pos hx] at hy
        exact Or.inr hy
      · simp only [simpleSlugAdd, if_pos h, if_neg hx, concatVals, List.map_cons,
          List.foldr_cons, List.mem_append] at hy ⊢
        rcases hy with (hy | hy) | hy
        · exact Or.inr (Or.inl hy)
        · exact Or.inl (by simpa using hy)
        · exact Or.inr (Or.inr hy)
    · simp only [simpleSlugAdd, if_neg h, concatVals, List.map_cons, List.foldr_cons,
        List.mem_append] at hy ⊢
      rcases hy with hy | hy
      · exact Or.inr (Or.inl hy)
      · rcases ih hy with hx' | hy'
        · exact Or.inl hx'
        · exact Or.inr (Or.inr hy')

/-- When the inserted element is new to every value list, `simpleSlugAdd`
extends the concatenated value lists by exactly that element. -/
theorem concatVals_simpleSlugAdd_perm (m : List (String × List String)) (k x : String)
    (hx : x ∉ concatVals m) :
    (concatVals (simpleSlugAdd m k x)).Perm (concatVals m ++ [x]) := by
  induction m with
  | nil => simp [simpleSlugAdd, concatVals]
  | cons e rest ih =>
    obtain ⟨k₀, s⟩ := e
    have hxs : x ∉ s := by
      intro hmem
      refine hx ?_
      simp only [concatVals, List.map_cons, List.foldr_cons, List.mem_append]
      exact Or.inl hmem
    have hxr : x ∉ concatVals rest := by
      intro hmem
      refine hx ?_
      simp only [concatVals, List.map_cons, List.foldr_cons, List.mem_append]
      exact Or.inr hmem
    by_cases h : k = k₀
    · simp only [simpleSlugAdd, if_pos h, if_neg hxs, concatVals, List.map_cons,
        List.foldr_cons]
      rw [List.append_assoc, List.append_assoc]
      exact List.Perm.append_left s List.perm_append_comm
    · simp only [simpleSlugAdd, if_neg h, concatVals, List.map_cons, List.foldr_cons]
      rw [List.append_assoc]
      exact List.Perm.append_left s (ih hxr)

/-- Folding the scan step appends the processed files to `allNotes`. -/
theorem scan_foldl_allNotes (paths : List String) (st : ScanResult) :
    (paths.foldl scanStep st).allNotes = st.allNotes ++ paths.map processFile := by
  induction paths generalizing st with
  | nil => simp
  | cons p ps ih =>
    rw [List.foldl_cons, ih]
    simp [scanStep]

/-- Invariant: every slug in a simple-slug value set is a key of the
full-path map, preserved by the whole fold. -/
theorem scan_mem_invariant (paths : List String) (st : ScanResult)
    (h : ∀ y ∈ concatVals st.notesMapBySimpleSlug,
      y ∈ st.notesMapByFullPathSlug.map (fun e => e.1)) :
    ∀ y ∈ concatVals (paths.foldl scanStep st).notesMapBySimpleSlug,
      y ∈ (paths.foldl scanStep st).notesMapByFullPathSlug.map (fun e => e.1) := by
  induction paths generalizing st with
  | nil => simpa using h
  | cons p ps ih =>
    rw [List.foldl_cons]
    apply ih
    intro y hy
    simp only [scanStep] at hy ⊢
    rw [mapSet_keys]
    rcases mem_concatVals_simpleSlugAdd _ _ _ _ hy with rfl | hy'
    · exact Or.inl rfl
    · exact Or.inr (h y hy')

/-- Invariant: under global distinctness of the inserted full-path slugs, the
concatenated simple-slug value lists are a permutation of the full-path slugs
of `allNotes`, preserved by the whole fold. -/
theorem scan_perm_invariant (paths : List String) (st : ScanResult)
    (hnd : (st.allNotes.map (fun n => n.fullPathSlug) ++
      paths.map (fun p => filenameToSlug p)).Nodup)
    (hperm : (concatVals st.notesMapBySimpleSlug).Perm
      (st.allNotes.map (fun n => n.fullPathSlug))) :
    (concatVals (paths.foldl scanStep st).notesMapBySimpleSlug).Perm
      ((paths.foldl scanStep st).allNotes.map (fun n => n.fullPathSlug)) := by
  induction paths generalizing st with
  | nil => simpa using hperm
  | cons p ps ih =>
    rw [List.foldl_cons]
    apply ih
    · simp only [scanStep, List.map_append, List.map_cons] at hnd ⊢
      have hfp : (processFile p).fullPathSlug = filenameToSlug p := rfl
      simpa [List.append_assoc, hfp] using hnd
    · have hx : filenameToSlug p ∉ concatVals st.notesMapBySimpleSlug := by
        intro hmem
        have hmem' : filenameToSlug p ∈ st.allNotes.map (fun n => n.fullPathSlug) :=
          hperm.mem_iff.mp hmem
        have hdisj := (List.nodup_append.mp hnd).2.2
        exact hdisj hmem' (by simp)
      simp only [scanStep]
      have hfp : (processFile p).fullPathSlug = filenameToSlug p := rfl
      rw [hfp]
      refine (concatVals_simpleSlugAdd_perm _ _ _ hx).trans ?_
      rw [List.map_append]
      exact hperm.append_right _

/-- C1 (amended): for every enumerated path sequence, every full-path slug in
a value-set of `notesMapBySimpleSlug` is a key of `notesMapByFullPathSlug`;
and when the full-path slugs of the paths are pairwise distinct, the union of
all value-sets has the same cardinality as `allNotes` (with colliding slugs
the union is strictly smaller, as the counterexample shows). -/
theorem scan_index_invariant (paths : List String) :
    (∀ y ∈ simpleSlugValues (scanAndProcessNotes paths),
      y ∈ fullPathKeys (scanAndProcessNotes paths)) ∧
    ((paths.map (fun p => filenameToSlug p)).Nodup →
      (simpleSlugValues (scanAndProcessNotes paths)).dedup.length =
        (scanAndProcessNotes paths).allNotes.length) := by
  constructor
  · intro y hy
    exact scan_mem_invariant paths ⟨[], [], []⟩ (by simp [concatVals]) y hy
  · intro hnd
    have hperm : (concatVals (scanAndProcessNotes paths).notesMapBySimpleSlug).Perm
        ((scanAndProcessNotes paths).allNotes.map (fun n => n.fullPathSlug)) :=
      scan_perm_invariant paths ⟨[], [], []⟩
        (by simpa [concatVals] using hnd) (by simp [concatVals])
    have hmap : (scanAndProcessNotes paths).allNotes.map (fun n => n.fullPathSlug) =
        paths.map (fun p => filenameToSlug p) := by
      have h : (scanAndProcessNotes paths).allNotes = [] ++ paths.map processFile :=
        scan_foldl_allNotes paths ⟨[], [], []⟩
      rw [h, List.nil_append, List.map_map]
      rfl
    have hnodup : (simpleSlugValues (scanAndProcessNotes paths)).Nodup := by
      have h : (concatVals (scanAndProcessNotes paths).notesMapBySimpleSlug).Nodup :=
        hperm.nodup_iff.mpr (by rw [hmap]; exact hnd)
      simpa [simpleSlugValues] using h
    rw [List.dedup_eq_self.mpr hnodup]
    have hlen := hperm.length_eq
    rw [List.length_map] at hlen
    simpa [simpleSlugValues] using hlen

/-- C1 amended witness: the collision scenario of §8 — `a/note.md` and
`b/note.md` share the simple slug but have distinct full-path slugs, and the
union of the value-sets then has the cardinality of `allNotes`. -/
theorem scan_index_invariant_witness :
    (simpleSlugValues (scanAndProcessNotes ["a/note.md", "b/note.md"])).dedup.length =
      (scanAndProcessNotes ["a/note.md", "b/note.md"]).allNotes.length :=
  (scan_index_invariant ["a/note.md", "b/note.md"]).2 (by decide)

/-- A slug-allowed character is not JavaScript whitespace. -/
theorem allowed_not_ws (c : Char) (h : slugAllowedChar c = true) :
    jsWhitespace c = false := by
  rw [Bool.eq_false_iff]
  intro hw
  simp only [slugAllowedChar, Bool.or_eq_true, Bool.and_eq_true, decide_eq_true_eq] at h
  simp only [jsWhitespace, Bool.or_eq_true, Bool.and_eq_true, decide_eq_true_eq] at hw
  omega

/-- A slug-allowed character is not an ASCII uppercase letter, so lowercasing
fixes it. -/
theorem allowed_toLower_id (c : Char) (h : slugAllowedChar c = true) :
    toLowerAscii c = c := by
  unfold toLowerAscii
  rw [if_neg]
  intro hc
  simp only [slugAllowedChar, Bool.or_eq_true, Bool.and_eq_true, decide_eq_true_eq] at h
  simp only [Bool.and_eq_true, decide_eq_true_eq] at hc
  omega

/-- A slug-allowed character is not an underscore. -/
theorem allowed_ne_underscore (c : Char) (h : slugAllowedChar c = true) : c ≠ '_' := by
  intro hc
  subst hc
  exact absurd h (by decide)

/-- A slug-allowed character is not a slash. -/
theorem allowed_ne_slash (c : Char) (h : slugAllowedChar c = true) : c ≠ '/' := by
  intro hc
  subst hc
  exact absurd h (by decide)

/-- Mapping a function that fixes every member is the identity. -/
theorem mapIdOfMem {α : Type} (f : α → α) (l : List α) (h : ∀ a ∈ l, f a = a) :
    l.map f = l := by
  induction l with
  | nil => rfl
  | cons a ts ih =>
    simp only [List.map_cons]
    rw [h a (by simp), ih (fun b hb => h b (by simp [hb]))]

/-- Filtering by a predicate every member satisfies is the identity. -/
theorem filterIdOfMem {α : Type} (p : α → Bool) (l : List α) (h : ∀ a ∈ l, p a = true) :
    l.filter p = l := by
  induction l with
  | nil => rfl
  | cons a ts ih =>
    rw [List.filter_cons, if_pos (h a (by simp)), ih (fun b hb => h b (by simp [hb]))]

/-- Dropping while a predicate no member satisfies is the identity. -/
theorem dropWhileIdOfAll (p : Char → Bool) (l : List Char)
    (h : ∀ c ∈ l, p c = false) : l.dropWhile p = l := by
  cases l with
  | nil => rfl
  | cons a ts => rw [List.dropWhile_cons, if_neg (by simp [h a (by simp)])]

/-- Dropping while a predicate the head does not satisfy is the identity. -/
theorem dropWhileIdOfHead (p : Char → Bool) (l : List Char)
    (h : ∀ c, l.head? = some c → p c = false) : l.dropWhile p = l := by
  cases l with
  | nil => rfl
  | cons a ts => rw [List.dropWhile_cons, if_neg (by simp [h a rfl])]

/-- The head of a `dropWhile` residue does not satisfy the predicate. -/
theorem dropWhile_head_false (p : Char → Bool) (l : List Char) (c : Char)
    (h : (l.dropWhile p).head? = some c) : p c = false := by
  induction l with
  | nil => simp [List.dropWhile] at h
  | cons a ts ih =>
    rw [List.dropWhile_cons] at h
    by_cases hpa : p a = true
    · rw [if_pos hpa] at h
      exact ih h
    · rw [if_neg hpa] at h
      simp only [List.head?_cons, Option.some.injEq] at h
      subst h
      exact Bool.eq_false_iff.mpr hpa

/-- A member of a `dropWhile` residue is a member of the list. -/
theorem mem_of_mem_dropWhile (p : Char → Bool) (l : List Char) (c : Char)
    (h : c ∈ l.dropWhile p) : c ∈ l := by
  induction l with
  | nil => simp [List.dropWhile] at h
  | cons a ts ih =>
    rw [List.dropWhile_cons] at h
    by_cases hpa : p a = true
    · rw [if_pos hpa] at h
      exact List.mem_cons_of_mem a (ih h)
    · rwa [if_neg hpa] at h

/-- The `dropWhile` residue is obtained by deleting some front part. -/
theorem exists_append_dropWhile (p : Char → Bool) (l : List Char) :
    ∃ t, t ++ l.dropWhile p = l := by
  induction l with
  | nil => exact ⟨[], rfl⟩
  | cons a ts ih =>
    by_cases hpa : p a = true
    · obtain ⟨t, ht⟩ := ih
      exact ⟨a :: t, by rw [List.dropWhile_cons, if_pos hpa, List.cons_append, ht]⟩
    · exact ⟨[], by rw [List.dropWhile_cons, if_neg hpa, List.nil_append]⟩

/-- No two adjacent hyphens anywhere in the list. -/
def noRunPair : List Char → Bool
  | [] => true
  | [_] => true
  | a :: b :: ts => !(isHyphen a && isHyphen b) && noRunPair (b :: ts)

/-- `noRunPair` holds of a tail. -/
theorem noRunPair_tail (a : Char) (l : List Char) (h : noRunPair (a :: l) = true) :
    noRunPair l = true := by
  cases l with
  | nil => rfl
  | cons b ts =>
    simp only [noRunPair, Bool.and_eq_true] at h
    exact h.2

/-- `noRunPair` restricts along dropping a front part. -/
theorem noRunPair_of_append_left : ∀ (t l : List Char),
    noRunPair (t ++ l) = true → noRunPair l = true := by
  intro t
  induction t with
  | nil => intro l h; exact h
  | cons a ts ih => intro l h; exact ih l (noRunPair_tail a (ts ++ l) h)

/-- `noRunPair` restricts along dropping a back part. -/
theorem noRunPair_of_append_right : ∀ (l t : List Char),
    noRunPair (l ++ t) = true → noRunPair l = true := by
  intro l
  induction l with
  | nil => intro t _; rfl
  | cons a ls ih =>
    intro t h
    cases ls with
    | nil => rfl
    | cons b ls' =>
      simp only [List.cons_append] at h
      simp only [noRunPair, Bool.and_eq_true] at h ⊢
      exact ⟨h.1, ih t (by simpa [List.cons_append] using h.2)⟩

/-- Run collapsing is the identity when no character satisfies the class. -/
theorem collapseRunsAux_id (p : Char → Bool) (r : Char) (l : List Char) :
    ∀ b : Bool, (∀ c ∈ l, p c = false) → collapseRunsAux p r b l = l := by
  induction l with
  | nil => intro b _; cases b <;> rfl
  | cons c ts ih =>
    intro b h
    have hc : ¬p c = true := by simp [h c (by simp)]
    have ht := ih false (fun d hd => h d (by simp [hd]))
    cases b <;> simp only [collapseRunsAux] <;> rw [if_neg hc, ht]

/-- After the in-run flag, the first emitted character is not a hyphen. -/
theorem collapseRunsAux_hyphen_head (l : List Char) :
    ∀ c, (collapseRunsAux isHyphen '-' true l).head? = some c → isHyphen c = false := by
  induction l with
  | nil => intro c h; simp [collapseRunsAux] at h
  | cons a ts ih =>
    intro c h
    simp only [collapseRunsAux] at h
    by_cases hpa : isHyphen a = true
    · rw [if_pos hpa] at h
      exact ih c h
    · rw [if_neg hpa] at h
      simp only [List.head?_cons, Option.some.injEq] at h
      subst h
      exact Bool.eq_false_iff.mpr hpa

/-- Hyphen-run collapsing leaves no two adjacent hyphens. -/
theorem collapseRunsAux_hyphen_noRunPair (l : List Char) :
    ∀ b : Bool, noRunPair (collapseRunsAux isHyphen '-' b l) = true := by
  induction l with
  | nil => intro b; cases b <;> rfl
  | cons a ts ih =>
    intro b
    by_cases hpa : isHyphen a = true
    · cases b
      · simp only [collapseRunsAux]
        rw [if_pos hpa]
        cases hcase : collapseRunsAux isHyphen '-' true ts with
        | nil => rfl
        | cons d ds =>
          have hd : isHyphen d = false :=
            collapseRunsAux_hyphen_head ts d (by rw [hcase]; rfl)
          simp only [noRunPair, Bool.and_eq_true]
          refine ⟨by simp [hd], ?_⟩
          have h2 := ih true
          rwa [hcase] at h2
      · simp only [collapseRunsAux]
        rw [if_pos hpa]
        exact ih true
    · have hd : isHyphen a = false := Bool.eq_false_iff.mpr hpa
      cases b <;>
        · simp only [collapseRunsAux]
          rw [if_neg hpa]
          cases hcase : collapseRunsAux isHyphen '-' false ts with
          | nil => rfl
          | cons d ds =>
            simp only [noRunPair, Bool.and_eq_true]
            refine ⟨by simp [hd], ?_⟩
            have h2 := ih false
            rwa [hcase] at h2

/-- On a hyphen-run-free list, collapsing hyphen runs is the identity (and
likewise with the in-run flag set when the head is not a hyphen). -/
theorem collapseRunsAux_hyphen_id (l : List Char) :
    noRunPair l = true →
    collapseRunsAux isHyphen '-' false l = l ∧
      (l.head? ≠ some '-' → collapseRunsAux isHyphen '-' true l = l) := by
  induction l with
  | nil => intro _; exact ⟨rfl, fun _ => rfl⟩
  | cons a ts ih =>
    intro h
    obtain ⟨ih1, ih2⟩ := ih (noRunPair_tail a ts h)
    constructor
    · simp only [collapseRunsAux]
      by_cases hpa : isHyphen a = true
      · rw [if_pos hpa]
        have ha : a = '-' := by simpa [isHyphen] using hpa
        subst ha
        have hhead : ts.head? ≠ some '-' := by
          cases ts with
          | nil => simp
          | cons b ts' =>
            simp only [noRunPair, Bool.and_eq_true] at h
            intro hb
            simp only [List.head?_cons, Option.some.injEq] at hb
            subst hb
            simp [isHyphen] at h
        rw [ih2 hhead]
      · rw [if_neg hpa, ih1]
    · intro hhead
      simp only [collapseRunsAux]
      by_cases hpa : isHyphen a = true
      · exfalso
        apply hhead
        have ha : a = '-' := by simpa [isHyphen] using hpa
        rw [ha, List.head?_cons]
      · rw [if_neg hpa, ih1]

/-- Every character emitted by run collapsing is the replacement character or
a character of the input. -/
theorem mem_collapseRunsAux (p : Char → Bool) (r : Char) (l : List Char) :
    ∀ (b : Bool) (c : Char), c ∈ collapseRunsAux p r b l → c = r ∨ c ∈ l := by
  induction l with
  | nil => intro b c h; cases b <;> simp [collapseRunsAux] at h
  | cons a ts ih =>
    intro b c h
    by_cases hpa : p a = true
    · cases b
      · simp only [collapseRunsAux] at h
        rw [if_pos hpa] at h
        rcases List.mem_cons.mp h with rfl | h'
        · exact Or.inl rfl
        · rcases ih true c h' with hr | hm
          · exact Or.inl hr
          · exact Or.inr (List.mem_cons_of_mem a hm)
      · simp only [collapseRunsAux] at h
        rw [if_pos hpa] at h
        rcases ih true c h with hr | hm
        · exact Or.inl hr
        · exact Or.inr (List.mem_cons_of_mem a hm)
    · cases b <;>
        · simp only [collapseRunsAux] at h
          rw [if_neg hpa] at h
          rcases List.mem_cons.mp h with rfl | h'
          · exact Or.inr (List.mem_cons_self _ _)
          · rcases ih false c h' with hr | hm
            · exact Or.inl hr
            · exact Or.inr (List.mem_cons_of_mem a hm)

/-- Trimming a list with no whitespace is the identity. -/
theorem trimChars_eq_self (l : List Char) (h : ∀ c ∈ l, jsWhitespace c = false) :
    trimChars l = l := by
  unfold trimChars
  rw [dropWhileIdOfAll _ _ h,
    dropWhileIdOfAll _ _ (fun c hc => h c (List.mem_reverse.mp hc)),
    List.reverse_reverse]

/-- Well-formedness of a produced slug segment: non-empty, all characters in
the allowed class, no adjacent hyphens, and no hyphen at either end. -/
def goodSeg (s : List Char) : Prop :=
  s ≠ [] ∧ (∀ c ∈ s, slugAllowedChar c = true) ∧ noRunPair s = true ∧
    s.head? ≠ some '-' ∧ s.reverse.head? ≠ some '-'

/-- Every non-empty output of `processSegment` is a well-formed segment. -/
theorem processSegment_goodSeg (seg : List Char) (h : processSegment seg ≠ []) :
    goodSeg (processSegment seg) := by
  simp only [processSegment] at h ⊢
  set s5 := ((collapseRuns jsWhitespace '-' ((trimChars seg).map toLowerAscii)).map
    (fun c => if c = '_' then '-' else c)).filter slugAllowedChar with hs5
  set s6 := collapseRuns isHyphen '-' s5 with hs6
  set l1 := s6.dropWhile isHyphen with hl1def
  set d := l1.reverse.dropWhile isHyphen with hddef
  have hall6 : ∀ c ∈ s6, slugAllowedChar c = true := by
    intro c hc
    rcases mem_collapseRunsAux isHyphen '-' s5 false c hc with rfl | hc5
    · decide
    · exact (List.mem_filter.mp hc5).2
  have hnr6 : noRunPair s6 = true := collapseRunsAux_hyphen_noRunPair s5 false
  obtain ⟨t1, ht1⟩ := exists_append_dropWhile isHyphen s6
  have hnr1 : noRunPair l1 = true := noRunPair_of_append_left t1 l1 (ht1 ▸ hnr6)
  obtain ⟨t2, ht2⟩ := exists_append_dropWhile isHyphen l1.reverse
  have hl1 : l1 = d.reverse ++ t2.reverse := by
    have h2 := congrArg List.reverse ht2
    simpa [List.reverse_append] using h2.symm
  refine ⟨h, ?_, ?_, ?_, ?_⟩
  · intro c hc
    have hc_l1 : c ∈ l1 := by
      rw [hl1]
      exact List.mem_append_left _ hc
    have hc_6 : c ∈ s6 := by
      rw [← ht1]
      exact List.mem_append_right t1 hc_l1
    exact hall6 c hc_6
  · exact noRunPair_of_append_right d.reverse t2.reverse (hl1 ▸ hnr1)
  · cases hres : d.reverse with
    | nil => exact absurd hres h
    | cons c cs =>
      intro hhead
      rw [List.head?_cons, Option.some.injEq] at hhead
      have hl1head : l1.head? = some c := by
        rw [hl1, hres, List.cons_append, List.head?_cons]
      have hc := dropWhile_head_false isHyphen s6 c hl1head
      rw [hhead] at hc
      exact absurd hc (by decide)
  · intro hlast
    rw [List.reverse_reverse] at hlast
    have hc := dropWhile_head_false isHyphen l1.reverse '-' hlast
    exact absurd hc (by decide)

/-- `processSegment` fixes every well-formed segment. -/
theorem processSegment_id_of_goodSeg (s : List Char) (h : goodSeg s) :
    processSegment s = s := by
  obtain ⟨hne, hall, hnr, hhead, hlast⟩ := h
  have h1 : trimChars s = s :=
    trimChars_eq_self s (fun c hc => allowed_not_ws c (hall c hc))
  have h2 : s.map toLowerAscii = s :=
    mapIdOfMem _ s (fun c hc => allowed_toLower_id c (hall c hc))
  have h3 : collapseRuns jsWhitespace '-' s = s :=
    collapseRunsAux_id jsWhitespace '-' s false
      (fun c hc => allowed_not_ws c (hall c hc))
  have h4 : s.map (fun c => if c = '_' then '-' else c) = s :=
    mapIdOfMem _ s (fun c hc => by rw [if_neg (allowed_ne_underscore c (hall c hc))])
  have h5 : s.filter slugAllowedChar = s := filterIdOfMem _ s hall
  have h6 : collapseRuns isHyphen '-' s = s := (collapseRunsAux_hyphen_id s hnr).1
  have h7 : s.dropWhile isHyphen = s := by
    refine dropWhileIdOfHead _ _ (fun c hc => ?_)
    have : c ≠ '-' := by
      intro e
      subst e
      exact hhead hc
    exact decide_eq_false this
  have h8 : s.reverse.dropWhile isHyphen = s.reverse := by
    refine dropWhileIdOfHead _ _ (fun c hc => ?_)
    have : c ≠ '-' := by
      intro e
      subst e
      exact hlast hc
    exact decide_eq_false this
  simp only [processSegment]
  rw [h1, h2, h3, h4, h5, h6, h7, h8, List.reverse_reverse]

/-- Splitting a slash-free list yields that one segment. -/
theorem splitOnSlash_no_slash (s : List Char) (h : ∀ c ∈ s, c ≠ '/') :
    splitOnSlash s = [s] := by
  induction s with
  | nil => rfl
  | cons a ts ih =>
    simp only [splitOnSlash]
    rw [if_neg (h a (by simp)), ih (fun c hc => h c (by simp [hc]))]

/-- Splitting distributes over a slash-free part followed by a slash. -/
theorem splitOnSlash_append (s t : List Char) (h : ∀ c ∈ s, c ≠ '/') :
    splitOnSlash (s ++ '/' :: t) = s :: splitOnSlash t := by
  induction s with
  | nil => simp only [List.nil_append, splitOnSlash, if_pos]
  | cons a hs ih =>
    simp only [List.cons_append, splitOnSlash, List.append_eq]
    rw [if_neg (h a (by simp)), ih (fun c hc => h c (by simp [hc]))]

/-- Splitting on slash is a retraction of joining slash-free segments. -/
theorem splitOnSlash_joinSlash (ss : List (List Char)) (hne : ss ≠ [])
    (h : ∀ s ∈ ss, ∀ c ∈ s, c ≠ '/') :
    splitOnSlash (joinSlash ss) = ss := by
  induction ss with
  | nil => exact absurd rfl hne
  | cons s rest ih =>
    cases rest with
    | nil =>
      simp only [joinSlash]
      exact splitOnSlash_no_slash s (h s (by simp))
    | cons s' rest' =>
      rw [show joinSlash (s :: s' :: rest') = s ++ '/' :: joinSlash (s' :: rest') from rfl]
      rw [splitOnSlash_append s (joinSlash (s' :: rest')) (h s (by simp)),
        ih (by simp) (fun u hu c hc => h u (by simp [hu]) c hc)]

/-- Every character of a slash-join is a slash or a segment character. -/
theorem mem_joinSlash (ss : List (List Char)) (c : Char) (h : c ∈ joinSlash ss) :
    c = '/' ∨ ∃ s ∈ ss, c ∈ s := by
  induction ss with
  | nil => simp [joinSlash] at h
  | cons s rest ih =>
    cases rest with
    | nil => exact Or.inr ⟨s, by simp, by simpa [joinSlash] using h⟩
    | cons s' rest' =>
      simp only [joinSlash, List.mem_append, List.mem_cons] at h
      rcases h with hs | h' | hj
      · exact Or.inr ⟨s, by simp, hs⟩
      · exact Or.inl h'
      · rcases ih hj with hc | ⟨u, hu, hcu⟩
        · exact Or.inl hc
        · exact Or.inr ⟨u, by simp [hu], hcu⟩

/-- Stripping the `.md` extension is the identity on dot-free lists. -/
theorem stripMdSuffix_eq_self (l : List Char) (h : '.' ∉ l) : stripMdSuffix l = l := by
  unfold stripMdSuffix
  rw [if_neg]
  intro heq
  have hmem : '.' ∈ l.reverse.take 3 := by rw [heq]; simp
  exact h (List.mem_reverse.mp (List.take_subset _ _ hmem))

/-- Backslash normalization is the identity on backslash-free lists. -/
theorem map_backslash_eq_self (l : List Char) (h : '\\' ∉ l) :
    l.map backslashToSlash = l :=
  mapIdOfMem _ _ (fun c hc => by
    have hcb : c ≠ '\\' := by
      intro e
      subst e
      exact h hc
    unfold backslashToSlash
    rw [if_neg hcb])

/-- A non-empty list is not recognized as empty. -/
theorem not_isEmpty_of_ne_nil {α : Type} (l : List α) (h : l ≠ []) :
    (!l.isEmpty) = true := by
  cases l with
  | nil => exact absurd rfl h
  | cons a ts => rfl

/-- A list passing the non-emptiness filter is non-empty. -/
theorem ne_nil_of_not_isEmpty {α : Type} (l : List α) (h : (!l.isEmpty) = true) :
    l ≠ [] := by
  cases l with
  | nil => simp at h
  | cons a ts => simp

/-- The slug core fixes every join of well-formed segments. -/
theorem slugCore_joinSlash (ss : List (List Char)) (hgood : ∀ s ∈ ss, goodSeg s) :
    slugCore (joinSlash ss) = joinSlash ss := by
  by_cases h0 : ss = []
  · subst h0
    rfl
  · have hchars : ∀ c ∈ joinSlash ss, c = '/' ∨ slugAllowedChar c = true := by
      intro c hc
      rcases mem_joinSlash ss c hc with h | ⟨s, hs, hcs⟩
      · exact Or.inl h
      · exact Or.inr ((hgood s hs).2.1 c hcs)
    have hdot : '.' ∉ joinSlash ss := by
      intro hc
      rcases hchars '.' hc with h | h
      · exact absurd h (by decide)
      · exact absurd h (by decide)
    have hbs : '\\' ∉ joinSlash ss := by
      intro hc
      rcases hchars '\\' hc with h | h
      · exact absurd h (by decide)
      · exact absurd h (by decide)
    unfold slugCore
    rw [stripMdSuffix_eq_self _ hdot, map_backslash_eq_self _ hbs]
    rw [splitOnSlash_joinSlash ss h0
      (fun s hs c hcs => allowed_ne_slash c ((hgood s hs).2.1 c hcs))]
    rw [mapIdOfMem processSegment ss
      (fun s hs => processSegment_id_of_goodSeg s (hgood s hs))]
    rw [filterIdOfMem _ ss (fun s hs => not_isEmpty_of_ne_nil s (hgood s hs).1)]

/-- The slug core is idempotent. -/
theorem slugCore_idem (l : List Char) : slugCore (slugCore l) = slugCore l := by
  have hgood : ∀ s ∈ (((splitOnSlash ((stripMdSuffix l).map backslashToSlash)).map
      processSegment).filter (fun s => !s.isEmpty)), goodSeg s := by
    intro s hs
    rw [List.mem_filter] at hs
    obtain ⟨hmem, hfil⟩ := hs
    rw [List.mem_map] at hmem
    obtain ⟨seg, _, rfl⟩ := hmem
    exact processSegment_goodSeg seg (ne_nil_of_not_isEmpty _ hfil)
  exact slugCore_joinSlash _ hgood

/-- C9: the slug generator is idempotent on every input, in particular on
every input already in slug form. -/
theorem filenameToSlug_idempotent (x : String) :
    filenameToSlug (filenameToSlug x) = filenameToSlug x := by
  unfold filenameToSlug
  by_cases h0 : x.data = []
  · rw [if_pos h0]
    rfl
  · rw [if_neg h0]
    by_cases h1 : (String.mk (slugCore x.data)).data = []
    · rw [if_pos h1]
      have h2 : slugCore x.data = [] := h1
      rw [h2]
    · rw [if_neg h1]
      have h2 : (String.mk (slugCore x.data)).data = slugCore x.data := rfl
      rw [h2, slugCore_idem]
